import Mathlib

/-!
Verification of the `useSafeSearchParams` hook
(src/hooks/useSafeSearchParams.tsx) and the demo schema (src/app/page.tsx).

The hook exposes two operations:

* `safeSearchParams = schema.parse(Object.fromEntries(searchParams))`
  — here `evaluate`: the raw query pair list is collapsed to a
  key-to-string mapping (later pairs shadow earlier ones, as in
  `Object.fromEntries`) and each schema field is parsed with its
  coercion, constraint and optional fallback.

* `createSafeURL(newParams)` — copies the current query pairs, performs
  `URLSearchParams.set(key, JSON.stringify(value))` for each key of the
  partial update, and returns `pathname + "?" + updatedParams.toString()`.

Queries are ordered lists of string pairs; the partial update is an
ordered list of (field, value) pairs, in the object's key-iteration
order.  JavaScript numbers are modelled as `Int` (every value the
claims touch is integral) and `Number(string)` coercion is modelled on
optionally-signed decimal integer literals plus the empty string
(`Number("") = 0`); all other strings map to `none` (NaN), which the
zod number check rejects.
-/

/-- JSON values that can appear in a partial update. -/
inductive JsonValue where
  | num (n : Int)
  | str (s : String)
  | bool (b : Bool)
  deriving DecidableEq, Repr

/-- One hexadecimal digit, uppercase, for `0 ≤ n < 16`. -/
def hexDigitChar (n : Nat) : Char :=
  if n < 10 then Char.ofNat (48 + n) else Char.ofNat (55 + n)

/-- JSON string escaping for a single character (as in `JSON.stringify`). -/
def escapeJsonChar (c : Char) : String :=
  if c = '"' then "\\\""
  else if c = '\\' then "\\\\"
  else if c = '\n' then "\\n"
  else if c = '\r' then "\\r"
  else if c = '\t' then "\\t"
  else if c.toNat < 32 then
    String.mk ['\\', 'u', '0', '0', hexDigitChar (c.toNat / 16), hexDigitChar (c.toNat % 16)]
  else String.singleton c

/-- Model of `JSON.stringify` on the values above: numbers print as their
decimal text, strings are wrapped in quote characters and escaped,
booleans print as `true` / `false`. -/
def jsonStringify : JsonValue → String
  | JsonValue.num n => toString n
  | JsonValue.str s => "\"" ++ String.join (s.toList.map escapeJsonChar) ++ "\""
  | JsonValue.bool b => if b then "true" else "false"

/-- Digits-only accumulator: `some` of the decimal value when every
character is a digit, `none` otherwise. -/
def digitsToNat : List Char → Option Nat
  | [] => some 0
  | c :: cs =>
    if c.isDigit then
      (digitsToNat cs).map (fun n => (c.toNat - 48) * 10 ^ cs.length + n)
    else none

/-- Model of JavaScript `Number(string)` restricted to optionally-signed
decimal integer literals: surrounding whitespace is trimmed, the empty
string coerces to `0`, and any other non-literal string gives `none`
(NaN, rejected by the zod number check). -/
def jsStrToNumber (s : String) : Option Int :=
  let t := ((s.toList.dropWhile Char.isWhitespace).reverse.dropWhile Char.isWhitespace).reverse
  match t with
  | [] => some 0
  | '-' :: rest =>
    if rest = [] then none else (digitsToNat rest).map (fun n => -(n : Int))
  | '+' :: rest =>
    if rest = [] then none else (digitsToNat rest).map (fun n => (n : Int))
  | cs => (digitsToNat cs).map (fun n => (n : Int))

/-- A single schema field: a coercion from the (possibly absent) raw
string, a constraint on the coerced value, and an optional fallback, as
in `z.coerce.number().min(0).or(fallback(0))`. -/
structure FieldSchema where
  coerce : Option String → Option JsonValue
  constraint : JsonValue → Bool
  fallback : Option JsonValue

/-- The accept branch of a field: coerce, then check the constraint. -/
def FieldSchema.accept (f : FieldSchema) (raw : Option String) : Option JsonValue :=
  match f.coerce raw with
  | some v => if f.constraint v then some v else none
  | none => none

/-- Parse a field: the accept branch, else the fallback branch of the
`.or(...)` union (absent when no fallback was declared). -/
def FieldSchema.parseField (f : FieldSchema) (raw : Option String) : Option JsonValue :=
  match f.accept raw with
  | some v => some v
  | none => f.fallback

/-- A schema: an ordered list of named fields (`z.object`). -/
structure Schema where
  fields : List (String × FieldSchema)

/-- Model of `Object.fromEntries` restricted to lookups: a later pair
with the same key shadows an earlier one (last occurrence wins). -/
def fromEntries : List (String × String) → String → Option String
  | [], _ => none
  | (k, v) :: rest, key =>
    match fromEntries rest key with
    | some w => some w
    | none => if k = key then some v else none

/-- Parse every field of the list, collecting the names of failing
fields (zod gathers one issue per offending field, in field order) and
the values of succeeding ones. -/
def evalFields : List (String × FieldSchema) → (String → Option String) →
    List String × List (String × JsonValue)
  | [], _ => ([], [])
  | (n, f) :: rest, get =>
    let r := evalFields rest get
    match f.parseField (get n) with
    | some v => (r.1, (n, v) :: r.2)
    | none => (n :: r.1, r.2)

/-- The error list of an evaluation (names of fields whose parse failed). -/
def evalErrs (s : Schema) (q : List (String × String)) : List String :=
  (evalFields s.fields (fromEntries q)).1

/-- `schema.parse(Object.fromEntries(searchParams))`: succeeds with the
validated state when every field parses, otherwise fails with the list
of offending field names (a thrown `ZodError`). -/
def evaluate (s : Schema) (q : List (String × String)) :
    Except (List String) (List (String × JsonValue)) :=
  let r := evalFields s.fields (fromEntries q)
  if r.1 = [] then Except.ok r.2 else Except.error r.1

/-- The `count` field of the demo page:
`z.coerce.number().min(0).or(fallback(0))`. -/
def countField : FieldSchema where
  coerce := fun raw =>
    match raw with
    | none => none
    | some s => (jsStrToNumber s).map JsonValue.num
  constraint := fun v =>
    match v with
    | JsonValue.num n => decide (0 ≤ n)
    | _ => false
  fallback := some (JsonValue.num 0)

/-- The demo page's schema: `z.object({ count: ... })`. -/
def searchParamsSchema : Schema where
  fields := [("count", countField)]

/-- `URLSearchParams.set(key, value)` on an ordered pair list: replace
the first pair with that key in place and delete the other pairs with
it; append at the end when the key is absent. -/
def setParam : List (String × String) → String → String → List (String × String)
  | [], k, v => [(k, v)]
  | (k0, v0) :: rest, k, v =>
    if k0 = k then (k, v) :: rest.filter (fun p => p.1 ≠ k)
    else (k0, v0) :: setParam rest k v

/-- The update loop of `createSafeURL`: for each key of the partial
update, set it to the JSON text of its new value. -/
def setAllParams (q : List (String × String)) (upd : List (String × JsonValue)) :
    List (String × String) :=
  upd.foldl (fun acc kv => setParam acc kv.1 (jsonStringify kv.2)) q

/-- Is the character serialized literally by
`application/x-www-form-urlencoded`? -/
def isFormSafe (c : Char) : Bool :=
  c.isAlphanum || c = '*' || c = '-' || c = '.' || c = '_'

/-- UTF-8 bytes of one character. -/
def utf8Bytes (c : Char) : List Nat :=
  let n := c.toNat
  if n < 128 then [n]
  else if n < 2048 then [192 + n / 64, 128 + n % 64]
  else if n < 65536 then [224 + n / 4096, 128 + n / 64 % 64, 128 + n % 64]
  else [240 + n / 262144, 128 + n / 4096 % 64, 128 + n / 64 % 64, 128 + n % 64]

/-- Percent-encode one byte. -/
def percentEncodeByte (b : Nat) : String :=
  String.mk ['%', hexDigitChar (b / 16), hexDigitChar (b % 16)]

/-- Encode one character of a form-urlencoded key or value. -/
def encodeFormChar (c : Char) : String :=
  if c = ' ' then "+"
  else if isFormSafe c then String.singleton c
  else String.join ((utf8Bytes c).map percentEncodeByte)

/-- Form-urlencode a string. -/
def urlencode (s : String) : String :=
  String.join (s.toList.map encodeFormChar)

/-- `URLSearchParams.toString()`: pairs as `k=v`, joined with `&`. -/
def paramsToString (l : List (String × String)) : String :=
  String.intercalate "&" (l.map (fun p => urlencode p.1 ++ "=" ++ urlencode p.2))

/-- `createSafeURL` with the mutable state made explicit: the body works
on a copy (`new URLSearchParams(searchParams)`), so the result pairs the
returned URL string with the caller's query as it stands after the call. -/
def createSafeURLRun (pathname : String) (searchParams : List (String × String))
    (newParams : List (String × JsonValue)) : String × List (String × String) :=
  let updatedParams := setAllParams searchParams newParams
  (pathname ++ "?" ++ paramsToString updatedParams, searchParams)

/-- The URL string returned by `createSafeURL`. -/
def createSafeURL (pathname : String) (searchParams : List (String × String))
    (newParams : List (String × JsonValue)) : String :=
  (createSafeURLRun pathname searchParams newParams).1

/-- First-match lookup in the partial update (its keys are unique, being
the keys of a JavaScript object). -/
def lookupUpd : List (String × JsonValue) → String → Option JsonValue
  | [], _ => none
  | (k, v) :: rest, key => if k = key then some v else lookupUpd rest key

/-- The merged query mapping claim C3 predicts: every pre-existing pair
keeps its position, its value replaced by the JSON text of the update's
value when its key is named there, and update keys absent from the
current query are appended at the end, in update order. -/
def specMergedQuery (upd : List (String × JsonValue)) (q : List (String × String)) :
    List (String × String) :=
  q.map (fun p =>
    match lookupUpd upd p.1 with
    | some v => (p.1, jsonStringify v)
    | none => p)
  ++ (upd.filter (fun kv => decide (kv.1 ∉ q.map Prod.fst))).map
      (fun kv => (kv.1, jsonStringify kv.2))

/-! ### Lemmas about `fromEntries` and `evalFields` -/

theorem fromEntries_eq_none {q : List (String × String)} {k : String}
    (h : k ∉ q.map Prod.fst) : fromEntries q k = none := by
  induction q with
  | nil => rfl
  | cons p rest ih =>
    obtain ⟨k0, v0⟩ := p
    simp only [List.map_cons, List.mem_cons] at h
    push_neg at h
    have hne : ¬ k0 = k := fun hk => h.1 hk.symm
    simp [fromEntries, ih h.2, hne]

theorem fromEntries_last (q₁ : List (String × String)) {q₂ : List (String × String)}
    (k v : String) (h : k ∉ q₂.map Prod.fst) :
    fromEntries (q₁ ++ (k, v) :: q₂) k = some v := by
  induction q₁ with
  | nil => simp [fromEntries, fromEntries_eq_none h]
  | cons p rest ih =>
    obtain ⟨k0, v0⟩ := p
    simp only [List.cons_append, fromEntries, List.append_eq]
    rw [ih]

theorem parseField_of_fallback (f : FieldSchema) (fb : JsonValue) (raw : Option String)
    (h : f.fallback = some fb) :
    f.parseField raw = some ((f.accept raw).getD fb) := by
  unfold FieldSchema.parseField
  cases ha : f.accept raw with
  | some v => simp
  | none => simp [h]

theorem parseField_constraint {f : FieldSchema} {raw : Option String} {v : JsonValue}
    (hp : f.parseField raw = some v)
    (hfb : ∀ fb, f.fallback = some fb → f.constraint fb = true) :
    f.constraint v = true := by
  unfold FieldSchema.parseField at hp
  cases ha : f.accept raw with
  | some w =>
    rw [ha] at hp
    injection hp with hp
    subst hp
    unfold FieldSchema.accept at ha
    cases hc : f.coerce raw with
    | some u =>
      rw [hc] at ha
      by_cases hcons : f.constraint u = true
      · simp [hcons] at ha
        rw [← ha]
        exact hcons
      · simp [hcons] at ha
    | none => rw [hc] at ha; exact absurd ha (by simp)
  | none =>
    rw [ha] at hp
    exact hfb v hp

theorem evalFields_ok_forall₂ (fields : List (String × FieldSchema))
    (get : String → Option String) (h : (evalFields fields get).1 = []) :
    List.Forall₂
      (fun (nf : String × FieldSchema) (p : String × JsonValue) =>
        p.1 = nf.1 ∧ nf.2.parseField (get nf.1) = some p.2)
      fields (evalFields fields get).2 := by
  induction fields with
  | nil => exact List.Forall₂.nil
  | cons nf rest ih =>
    obtain ⟨n, f⟩ := nf
    cases hp : f.parseField (get n) with
    | some v =>
      simp only [evalFields, hp] at h ⊢
      exact List.Forall₂.cons ⟨rfl, hp⟩ (ih h)
    | none =>
      simp only [evalFields, hp] at h
      exact absurd h (by simp)

theorem mem_errs_of_parse_none {fields : List (String × FieldSchema)}
    {get : String → Option String} {n : String} {f : FieldSchema}
    (hmem : (n, f) ∈ fields) (hp : f.parseField (get n) = none) :
    n ∈ (evalFields fields get).1 := by
  induction fields with
  | nil => exact absurd hmem (by simp)
  | cons nf rest ih =>
    obtain ⟨n0, f0⟩ := nf
    rcases List.mem_cons.mp hmem with heq | hrest
    · injection heq with h1 h2
      subst h1; subst h2
      simp only [evalFields, hp]
      exact List.mem_cons_self _ _
    · cases hp0 : f0.parseField (get n0) with
      | some v => simpa only [evalFields, hp0] using ih hrest
      | none =>
        simp only [evalFields, hp0]
        exact List.mem_cons_of_mem _ (ih hrest)

theorem evaluate_ok_iff (s : Schema) (q : List (String × String))
    (st : List (String × JsonValue)) :
    evaluate s q = Except.ok st ↔
      (evalFields s.fields (fromEntries q)).1 = [] ∧
      (evalFields s.fields (fromEntries q)).2 = st := by
  unfold evaluate
  by_cases h : (evalFields s.fields (fromEntries q)).1 = []
  · simp [h]
  · simp [h]

/-! ### Claims about `evaluate` -/

/-- C1: for a field with a declared fallback, `evaluate` follows the
accept-or-fallback policy — the parsed value is the accepted coercion
when it exists and the fallback otherwise; for the demo schema
(`count` coerced to a number with minimum 0 and fallback 0), raw query
`count=5` yields `{count: 5}`, the empty query yields `{count: 0}`, and
`count=-3` yields `{count: 0}`. -/
theorem evaluate_accept_or_fallback :
    (∀ (f : FieldSchema) (fb : JsonValue) (raw : Option String),
        f.fallback = some fb →
        f.parseField raw = some ((f.accept raw).getD fb))
    ∧ evaluate searchParamsSchema [("count", "5")] = Except.ok [("count", JsonValue.num 5)]
    ∧ evaluate searchParamsSchema [] = Except.ok [("count", JsonValue.num 0)]
    ∧ evaluate searchParamsSchema [("count", "-3")] = Except.ok [("count", JsonValue.num 0)] :=
  ⟨parseField_of_fallback, rfl, rfl, rfl⟩

/-- C1 witness: the policy instantiated on the demo field at the
non-numeric raw value `abc`, where the fallback is `0`. -/
theorem evaluate_accept_or_fallback_witness :
    countField.parseField (some "abc") =
      some ((countField.accept (some "abc")).getD (JsonValue.num 0)) :=
  evaluate_accept_or_fallback.1 countField (JsonValue.num 0) (some "abc") rfl

/-- C2: whenever `evaluate` succeeds, the validated state conforms to
the schema — it has one entry per schema field, with the field's name,
and (assuming every declared fallback satisfies its own field's
constraint) every value satisfies its field's constraint. -/
theorem evaluate_satisfies_schema (s : Schema) (q : List (String × String))
    (st : List (String × JsonValue)) (hok : evaluate s q = Except.ok st)
    (hfb : ∀ nf ∈ s.fields, ∀ fb, nf.2.fallback = some fb → nf.2.constraint fb = true) :
    st.length = s.fields.length ∧
    ∀ (i : Nat) (hi : i < st.length) (hs : i < s.fields.length),
      (st.get ⟨i, hi⟩).1 = (s.fields.get ⟨i, hs⟩).1 ∧
      (s.fields.get ⟨i, hs⟩).2.constraint (st.get ⟨i, hi⟩).2 = true := by
  obtain ⟨herrs, hst⟩ := (evaluate_ok_iff s q st).mp hok
  have hf := evalFields_ok_forall₂ s.fields (fromEntries q) herrs
  rw [hst] at hf
  obtain ⟨hlen, hget⟩ := List.forall₂_iff_get.mp hf
  refine ⟨hlen.symm, ?_⟩
  intro i hi hs
  obtain ⟨h1, h2⟩ := hget i hs hi
  refine ⟨h1, ?_⟩
  have hmem : s.fields.get ⟨i, hs⟩ ∈ s.fields := List.get_mem _ _ _
  exact parseField_constraint h2 (fun fb hfb2 => hfb _ hmem fb hfb2)

/-- C2 witness: the invariant instantiated on the demo schema at raw
query `count=5`. -/
theorem evaluate_satisfies_schema_witness :
    ([("count", JsonValue.num 5)] : List (String × JsonValue)).length =
      searchParamsSchema.fields.length :=
  (evaluate_satisfies_schema searchParamsSchema [("count", "5")]
    [("count", JsonValue.num 5)] rfl
    (by
      intro nf hnf fb hfb
      simp only [searchParamsSchema, List.mem_singleton] at hnf
      subst hnf
      have h0 : countField.fallback = some (JsonValue.num 0) := rfl
      rw [h0] at hfb
      rw [← Option.some.inj hfb]
      rfl)).1

/-- C7: for a schema field with no declared fallback, when the raw
value fails the field's coercion/constraint rules (in particular when
it is absent), `evaluate` fails with a validation error whose list of
offending fields contains that field's name — the error is propagated,
not swallowed. -/
theorem evaluate_error_no_fallback (s : Schema) (q : List (String × String))
    (n : String) (f : FieldSchema) (hmem : (n, f) ∈ s.fields)
    (hfb : f.fallback = none) (hacc : f.accept (fromEntries q n) = none) :
    evaluate s q = Except.error (evalErrs s q) ∧ n ∈ evalErrs s q := by
  have hp : f.parseField (fromEntries q n) = none := by
    unfold FieldSchema.parseField
    rw [hacc]
    exact hfb
  have hn : n ∈ evalErrs s q := mem_errs_of_parse_none hmem hp
  refine ⟨?_, hn⟩
  have hne : (evalFields s.fields (fromEntries q)).1 ≠ [] := List.ne_nil_of_mem hn
  simp only [evaluate]
  rw [if_neg hne]
  rfl

/-- C7 witness: the demo `count` field with its fallback removed, on the
empty query — evaluation fails and names `count`. -/
theorem evaluate_error_no_fallback_witness :
    evaluate ⟨[("count", ⟨countField.coerce, countField.constraint, none⟩)]⟩ [] =
        Except.error
          (evalErrs ⟨[("count", ⟨countField.coerce, countField.constraint, none⟩)]⟩ []) ∧
      "count" ∈ evalErrs ⟨[("count", ⟨countField.coerce, countField.constraint, none⟩)]⟩ [] :=
  evaluate_error_no_fallback _ [] "count" _ (List.mem_singleton.mpr rfl) rfl rfl

/-- C10: collapsing the raw pair sequence to a key-to-string mapping
keeps, for each key, its final occurrence's value, and the validated
state is computed from that value — for the demo schema, the duplicate
query `count=-3&count=5` validates to `{count: 5}`. -/
theorem evaluate_last_occurrence :
    (∀ (q₁ q₂ : List (String × String)) (k v : String), k ∉ q₂.map Prod.fst →
        fromEntries (q₁ ++ (k, v) :: q₂) k = some v)
    ∧ evaluate searchParamsSchema [("count", "-3"), ("count", "5")] =
        Except.ok [("count", JsonValue.num 5)] :=
  ⟨fun q₁ q₂ k v h => @fromEntries_last q₁ q₂ k v h, rfl⟩

/-- C10 witness: the last-occurrence rule at the duplicate query
`count=-3&count=5`. -/
theorem evaluate_last_occurrence_witness :
    fromEntries [("count", "-3"), ("count", "5")] "count" = some "5" :=
  evaluate_last_occurrence.1 [("count", "-3")] [] "count" "5" (by simp)

/-! ### Lemmas about `setParam` and `setAllParams` -/

theorem setParam_ne_nil (l : List (String × String)) (k v : String) :
    setParam l k v ≠ [] := by
  cases l with
  | nil => simp [setParam]
  | cons p rest =>
    obtain ⟨k0, v0⟩ := p
    by_cases h : k0 = k <;> simp [setParam, h]

theorem setAllParams_ne_nil_of_ne_nil (upd : List (String × JsonValue))
    {q : List (String × String)} (hq : q ≠ []) : setAllParams q upd ≠ [] := by
  induction upd generalizing q with
  | nil => exact hq
  | cons kv rest ih =>
    exact ih (setParam_ne_nil q kv.1 (jsonStringify kv.2))

theorem setAllParams_eq_nil_iff (q : List (String × String))
    (upd : List (String × JsonValue)) :
    setAllParams q upd = [] ↔ q = [] ∧ upd = [] := by
  constructor
  · intro h
    cases upd with
    | nil => exact ⟨h, rfl⟩
    | cons kv rest =>
      have : setAllParams q (kv :: rest) ≠ [] := by
        show setAllParams (setParam q kv.1 (jsonStringify kv.2)) rest ≠ []
        exact setAllParams_ne_nil_of_ne_nil rest (setParam_ne_nil q kv.1 (jsonStringify kv.2))
      exact absurd h this
  · rintro ⟨hq, hu⟩
    subst hq
    subst hu
    rfl

/-! ### Claims about `createSafeURL` -/

/-- C6 counterexample: the claim says an empty "?" suffix is emitted
only if the query mapping was non-empty before the update, but the code
appends "?" unconditionally — on the empty path query and empty update,
the output is the path with an empty "?" suffix even though the mapping
was empty before. -/
theorem createSafeURL_empty_suffix_refuted :
    ¬ (∀ (p : String) (q : List (String × String)) (upd : List (String × JsonValue)),
        createSafeURL p q upd = p ++ "?" → q ≠ []) := by
  intro h
  exact h "/p" [] [] rfl rfl

/-- C6 (amended): `createSafeURL` always returns
`currentPath ++ "?" ++ serializedQuery`; the resulting query mapping is
empty exactly when both the current query and the update are empty, and
in that case the output is the path with an empty "?" suffix —
unconditionally, not only when the mapping was non-empty before. -/
theorem createSafeURL_shape (p : String) (q : List (String × String))
    (upd : List (String × JsonValue)) :
    createSafeURL p q upd = p ++ "?" ++ paramsToString (setAllParams q upd)
    ∧ (setAllParams q upd = [] ↔ q = [] ∧ upd = []) :=
  ⟨rfl, setAllParams_eq_nil_iff q upd⟩

/-- C8: `createSafeURL` is deterministic across repeated calls — a
second call whose current query is the caller's query as left behind by
a first call with the same arguments returns the same string. -/
theorem createSafeURL_deterministic (p : String) (q : List (String × String))
    (upd : List (String × JsonValue)) :
    (createSafeURLRun p q upd).1 =
      (createSafeURLRun p (createSafeURLRun p q upd).2 upd).1 :=
  rfl

/-- C9: `createSafeURL` does not mutate the caller's query mapping — the
body works on a copy, so after the call the caller's query holds exactly
the pairs it held before, in the same order. -/
theorem createSafeURL_no_mutation (p : String) (q : List (String × String))
    (upd : List (String × JsonValue)) :
    (createSafeURLRun p q upd).2 = q :=
  rfl

theorem filter_setParam_pred (l : List (String × String)) (k v : String)
    (P : String → Bool) (hP : P k = false) :
    (setParam l k v).filter (fun p => P p.1) = l.filter (fun p => P p.1) := by
  induction l with
  | nil => simp [setParam, hP]
  | cons p0 rest ih =>
    obtain ⟨k0, v0⟩ := p0
    by_cases h : k0 = k
    · subst h
      simp only [setParam, eq_self_iff_true, if_true, List.filter_cons, hP,
        Bool.false_eq_true, if_false]
      rw [List.filter_filter]
      apply List.filter_congr
      intro a _
      by_cases ha : a.1 = k0
      · simp [ha, hP]
      · simp [ha]
    · simp only [setParam, if_neg h, List.filter_cons]
      rw [ih]

theorem filter_setAllParams_pred (P : String → Bool) :
    ∀ (upd : List (String × JsonValue)) (q : List (String × String)),
      (∀ kv ∈ upd, P kv.1 = false) →
      (setAllParams q upd).filter (fun p => P p.1) = q.filter (fun p => P p.1) := by
  intro upd
  induction upd with
  | nil => intro q _; rfl
  | cons kv rest ih =>
    intro q hP
    have h1 : P kv.1 = false := hP kv (List.mem_cons_self _ _)
    have h2 : ∀ kv2 ∈ rest, P kv2.1 = false := fun kv2 hm => hP kv2 (List.mem_cons_of_mem _ hm)
    show (setAllParams (setParam q kv.1 (jsonStringify kv.2)) rest).filter (fun p => P p.1) =
      q.filter (fun p => P p.1)
    rw [ih (setParam q kv.1 (jsonStringify kv.2)) h2]
    exact filter_setParam_pred q kv.1 (jsonStringify kv.2) P h1

theorem filter_eq_setParam_self (l : List (String × String)) (k v : String) :
    (setParam l k v).filter (fun p => decide (p.1 = k)) = [(k, v)] := by
  induction l with
  | nil => simp [setParam]
  | cons p0 rest ih =>
    obtain ⟨k0, v0⟩ := p0
    by_cases h : k0 = k
    · subst h
      simp only [setParam, eq_self_iff_true, if_true, List.filter_cons, decide_eq_true_eq]
      rw [List.filter_filter]
      simp
    · simp only [setParam, if_neg h, List.filter_cons]
      have hd : decide ((k0, v0).1 = k) = false := by simp [h]
      rw [hd]
      simpa using ih

theorem filter_eq_setAllParams_of_mem :
    ∀ (upd : List (String × JsonValue)) (q : List (String × String)) (k : String),
      k ∈ upd.map Prod.fst →
      ∃ w, (setAllParams q upd).filter (fun p => decide (p.1 = k)) = [(k, w)] := by
  intro upd
  induction upd with
  | nil => intro q k h; exact absurd h (by simp)
  | cons kv rest ih =>
    intro q k h
    by_cases hk : k ∈ rest.map Prod.fst
    · exact ih (setParam q kv.1 (jsonStringify kv.2)) k hk
    · have hkk : k = kv.1 := by
        rw [List.map_cons, List.mem_cons] at h
        rcases h with h1 | h2
        · exact h1
        · exact absurd h2 hk
      subst hkk
      refine ⟨jsonStringify kv.2, ?_⟩
      show (setAllParams (setParam q kv.1 (jsonStringify kv.2)) rest).filter
          (fun p => decide (p.1 = kv.1)) = [(kv.1, jsonStringify kv.2)]
      rw [filter_setAllParams_pred (fun s => decide (s = kv.1)) rest
        (setParam q kv.1 (jsonStringify kv.2))
        (fun kv2 hm => by
          have : kv2.1 ∈ rest.map Prod.fst := List.mem_map_of_mem Prod.fst hm
          have hne : ¬ kv2.1 = kv.1 := fun he => hk (he ▸ this)
          simp [hne])]
      exact filter_eq_setParam_self q kv.1 (jsonStringify kv.2)

theorem filter_eq_setAllParams_nodup :
    ∀ (upd : List (String × JsonValue)) (q : List (String × String)) (k : String)
      (v : JsonValue), (upd.map Prod.fst).Nodup → (k, v) ∈ upd →
      (setAllParams q upd).filter (fun p => decide (p.1 = k)) = [(k, jsonStringify v)] := by
  intro upd
  induction upd with
  | nil => intro q k v _ hmem; exact absurd hmem (by simp)
  | cons kv rest ih =>
    intro q k v hnd hmem
    have hnd' := hnd
    rw [List.map_cons, List.nodup_cons] at hnd'
    rcases List.mem_cons.mp hmem with heq | hrest
    · rw [← heq] at hnd' ⊢
      show (setAllParams (setParam q k (jsonStringify v)) rest).filter
          (fun p => decide (p.1 = k)) = [(k, jsonStringify v)]
      rw [filter_setAllParams_pred (fun s => decide (s = k)) rest
        (setParam q k (jsonStringify v))
        (fun kv2 hm => by
          have hin : kv2.1 ∈ rest.map Prod.fst := List.mem_map_of_mem Prod.fst hm
          have hne : ¬ kv2.1 = k := fun he => hnd'.1 (he ▸ hin)
          simp [hne])]
      exact filter_eq_setParam_self q k (jsonStringify v)
    · have hne : k ≠ kv.1 := by
        intro he
        apply hnd'.1
        rw [← he]
        exact List.mem_map_of_mem Prod.fst hrest
      exact ih (setParam q kv.1 (jsonStringify kv.2)) k v hnd'.2 hrest

/-- C4: for every key named in the partial update, the updated query
mapping serialized by `createSafeURL` contains that key exactly once
(set/overwrite semantics, no duplicates) — concretely, current query
`count=1` with update `{count: 2}` yields `/p?count=2`, with `count=2`
exactly once. -/
theorem createSafeURL_overwrite :
    (∀ (q : List (String × String)) (upd : List (String × JsonValue)) (k : String),
        k ∈ upd.map Prod.fst →
        ((setAllParams q upd).map Prod.fst).count k = 1)
    ∧ createSafeURL "/p" [("count", "1")] [("count", JsonValue.num 2)] = "/p?count=2" := by
  constructor
  · intro q upd k hk
    obtain ⟨w, hw⟩ := filter_eq_setAllParams_of_mem upd q k hk
    rw [List.count_eq_countP, List.countP_map, List.countP_eq_length_filter]
    have hc : (setAllParams q upd).filter ((fun s => s == k) ∘ Prod.fst) =
        (setAllParams q upd).filter (fun p => decide (p.1 = k)) :=
      List.filter_congr (fun a _ => by simp [Function.comp, Bool.beq_eq_decide_eq])
    rw [hc, hw]
    rfl
  · rfl

/-- C4 witness: the overwrite rule at current query `count=1`, update
`{count: 2}`. -/
theorem createSafeURL_overwrite_witness :
    ((setAllParams [("count", "1")] [("count", JsonValue.num 2)]).map Prod.fst).count
      "count" = 1 :=
  createSafeURL_overwrite.1 [("count", "1")] [("count", JsonValue.num 2)] "count" (by simp)

/-- C5: every key of the partial update is written as the JSON text of
its new value — under the updated mapping the key's (unique) entry holds
`jsonStringify` of the value, uniformly in the value's type; a number 5
serializes to the literal text `5` and a string `x` to `"x"` with the
quote characters included. -/
theorem createSafeURL_json_encodes :
    (∀ (q : List (String × String)) (upd : List (String × JsonValue)) (k : String)
        (v : JsonValue), (upd.map Prod.fst).Nodup → (k, v) ∈ upd →
        (setAllParams q upd).filter (fun p => decide (p.1 = k)) = [(k, jsonStringify v)])
    ∧ jsonStringify (JsonValue.num 5) = "5"
    ∧ jsonStringify (JsonValue.str "x") = "\"x\"" :=
  ⟨fun q upd k v h1 h2 => filter_eq_setAllParams_nodup upd q k v h1 h2, rfl, rfl⟩

/-- C5 witness: updating `a` to the number 5 on the empty query writes
the pair `a=5` (JSON text of the value). -/
theorem createSafeURL_json_encodes_witness :
    (setAllParams [] [("a", JsonValue.num 5)]).filter (fun p => decide (p.1 = "a")) =
      [("a", jsonStringify (JsonValue.num 5))] :=
  createSafeURL_json_encodes.1 [] [("a", JsonValue.num 5)] "a" (JsonValue.num 5)
    (by simp) (by simp)

theorem lookupUpd_eq_none {upd : List (String × JsonValue)} {k : String}
    (h : k ∉ upd.map Prod.fst) : lookupUpd upd k = none := by
  induction upd with
  | nil => rfl
  | cons kv rest ih =>
    obtain ⟨k0, v0⟩ := kv
    rw [List.map_cons, List.mem_cons] at h
    push_neg at h
    have hne : ¬ k0 = k := fun he => h.1 he.symm
    simp [lookupUpd, hne, ih h.2]

theorem setParam_not_mem {l : List (String × String)} {k : String} (v : String)
    (h : k ∉ l.map Prod.fst) : setParam l k v = l ++ [(k, v)] := by
  induction l with
  | nil => rfl
  | cons p rest ih =>
    obtain ⟨k0, v0⟩ := p
    rw [List.map_cons, List.mem_cons] at h
    push_neg at h
    have hne : ¬ k0 = k := fun he => h.1 he.symm
    simp [setParam, hne, ih h.2]

theorem setParam_mem_nodup {l : List (String × String)} {k : String} (v : String)
    (hnd : (l.map Prod.fst).Nodup) (h : k ∈ l.map Prod.fst) :
    setParam l k v = l.map (fun p => if p.1 = k then (k, v) else p) := by
  induction l with
  | nil => exact absurd h (by simp)
  | cons p rest ih =>
    obtain ⟨k0, v0⟩ := p
    rw [List.map_cons, List.nodup_cons] at hnd
    by_cases he : k0 = k
    · subst he
      have hfilter : rest.filter (fun p => decide (p.1 ≠ k0)) = rest := by
        apply List.filter_eq_self.mpr
        intro a ha
        have hin : a.1 ∈ rest.map Prod.fst := List.mem_map_of_mem Prod.fst ha
        have hne : ¬ a.1 = k0 := fun heq => hnd.1 (heq ▸ hin)
        simp [hne]
      have hmap : rest.map (fun p => if p.1 = k0 then (k0, v) else p) = rest := by
        have hpt : ∀ p ∈ rest, (if p.1 = k0 then (k0, v) else p) = id p := by
          intro p hp
          have hin : p.1 ∈ rest.map Prod.fst := List.mem_map_of_mem Prod.fst hp
          have hne : ¬ p.1 = k0 := fun heq => hnd.1 (heq ▸ hin)
          simp [hne]
        rw [List.map_congr_left hpt, List.map_id]
      simp only [setParam, eq_self_iff_true, if_true, hfilter, List.map_cons, hmap]
    · rw [List.map_cons, List.mem_cons] at h
      have hk : k ∈ rest.map Prod.fst := by
        rcases h with h1 | h2
        · exact absurd h1.symm he
        · exact h2
      simp [setParam, he, ih hnd.2 hk]

theorem keys_map_subst (l : List (String × String)) (k v : String) :
    (l.map (fun p => if p.1 = k then (k, v) else p)).map Prod.fst = l.map Prod.fst := by
  rw [List.map_map]
  apply List.map_congr_left
  intro a _
  by_cases ha : a.1 = k
  · simp [Function.comp, ha]
  · simp [Function.comp, ha]

theorem setAllParams_eq_specMergedQuery :
    ∀ (upd : List (String × JsonValue)) (q : List (String × String)),
      (q.map Prod.fst).Nodup → (upd.map Prod.fst).Nodup →
      setAllParams q upd = specMergedQuery upd q := by
  intro upd
  induction upd with
  | nil =>
    intro q _ _
    simp [setAllParams, specMergedQuery, lookupUpd]
  | cons kv rest ih =>
    intro q hq hupd
    obtain ⟨k, w⟩ := kv
    rw [List.map_cons, List.nodup_cons] at hupd
    show setAllParams (setParam q k (jsonStringify w)) rest = _
    by_cases hk : k ∈ q.map Prod.fst
    · rw [setParam_mem_nodup (jsonStringify w) hq hk]
      rw [ih _ (by rw [keys_map_subst]; exact hq) hupd.2]
      unfold specMergedQuery
      congr 1
      · rw [List.map_map]
        apply List.map_congr_left
        intro p hp
        by_cases hpk : p.1 = k
        · simp [Function.comp, lookupUpd, hpk, lookupUpd_eq_none hupd.1]
        · have hne : ¬ k = p.1 := fun heq => hpk heq.symm
          simp [Function.comp, lookupUpd, hpk, hne]
      · rw [keys_map_subst, List.filter_cons]
        have hdec : decide ((k, w).1 ∉ q.map Prod.fst) = false := by simp [hk]
        simp [hdec]
    · rw [setParam_not_mem (jsonStringify w) hk]
      have hq' : ((q ++ [(k, jsonStringify w)]).map Prod.fst).Nodup := by
        rw [List.map_append, List.nodup_append]
        refine ⟨hq, by simp, ?_⟩
        intro a ha hamem
        simp only [List.map_cons, List.map_nil, List.mem_singleton] at hamem
        subst hamem
        exact hk ha
      rw [ih _ hq' hupd.2]
      unfold specMergedQuery
      rw [List.map_append]
      have hmap1 : ([(k, jsonStringify w)] : List (String × String)).map
          (fun p => match lookupUpd rest p.1 with
            | some v => (p.1, jsonStringify v)
            | none => p) = [(k, jsonStringify w)] := by
        simp [lookupUpd_eq_none hupd.1]
      rw [hmap1]
      have hmap2 : q.map (fun p => match lookupUpd rest p.1 with
            | some v => (p.1, jsonStringify v)
            | none => p) =
          q.map (fun p => match lookupUpd ((k, w) :: rest) p.1 with
            | some v => (p.1, jsonStringify v)
            | none => p) := by
        apply List.map_congr_left
        intro p hp
        have hin : p.1 ∈ q.map Prod.fst := List.mem_map_of_mem Prod.fst hp
        have hne : ¬ k = p.1 := fun heq => hk (heq ▸ hin)
        simp [lookupUpd, hne]
      rw [hmap2]
      have hfilter : rest.filter
            (fun kv2 => decide (kv2.1 ∉ (q ++ [(k, jsonStringify w)]).map Prod.fst)) =
          rest.filter (fun kv2 => decide (kv2.1 ∉ q.map Prod.fst)) := by
        apply List.filter_congr
        intro kv2 hm
        have hin : kv2.1 ∈ rest.map Prod.fst := List.mem_map_of_mem Prod.fst hm
        have hne : ¬ kv2.1 = k := fun heq => hupd.1 (heq ▸ hin)
        simp [List.mem_append, hne]
      rw [hfilter, List.filter_cons]
      have hdec : decide ((k, w).1 ∉ q.map Prod.fst) = true := by simp [hk]
      rw [hdec]
      simp

/-- C3: `createSafeURL` leaves every pair whose key is not named in the
partial update unchanged, in its original order; when the query's and
the update's keys are each duplicate-free, the updated mapping is
exactly the original pairs in order — values of updated pre-existing
keys replaced in place — followed by the update's new keys appended at
the end; concretely, current query `hello=world` with update
`{count: 1}` yields `/p?hello=world&count=1`. -/
theorem createSafeURL_preserves_unrelated :
    (∀ (q : List (String × String)) (upd : List (String × JsonValue)),
        (setAllParams q upd).filter (fun p => decide (p.1 ∉ upd.map Prod.fst)) =
          q.filter (fun p => decide (p.1 ∉ upd.map Prod.fst)))
    ∧ (∀ (q : List (String × String)) (upd : List (String × JsonValue)),
        (q.map Prod.fst).Nodup → (upd.map Prod.fst).Nodup →
        setAllParams q upd = specMergedQuery upd q)
    ∧ createSafeURL "/p" [("hello", "world")] [("count", JsonValue.num 1)] =
        "/p?hello=world&count=1" := by
  refine ⟨?_, fun q upd h1 h2 => setAllParams_eq_specMergedQuery upd q h1 h2, rfl⟩
  intro q upd
  exact filter_setAllParams_pred (fun s => decide (s ∉ upd.map Prod.fst)) upd q
    (fun kv hm =>
      decide_eq_false_iff_not.mpr (not_not_intro (List.mem_map_of_mem Prod.fst hm)))

/-- C3 witness: merging update `{count: 1}` into current query
`hello=world` matches the predicted merge shape. -/
theorem createSafeURL_preserves_unrelated_witness :
    setAllParams [("hello", "world")] [("count", JsonValue.num 1)] =
      specMergedQuery [("count", JsonValue.num 1)] [("hello", "world")] :=
  createSafeURL_preserves_unrelated.2.1 [("hello", "world")] [("count", JsonValue.num 1)]
    (by simp) (by simp)
